import Mathlib

/-!
# Verification of the update-wg address-set pipeline

Shallow embedding of the IPv4 set-algebra core of `update-wg.py` /
`update-wg-ipset.py`: parsing of CIDR tokens, range-to-CIDR conversion,
prefix aggregation (`expand_small_networks`), canonical address-set algebra
(the semantics of the `netaddr.IPSet` operations used by `main`), and the
orchestrating computation of steps 1-7 of `main`.

Addresses are natural numbers below `2^32`.  The `netaddr` library calls
(`IPNetwork`, `iprange_to_cidrs`, `IPSet` union/difference/`iter_cidrs`)
are not part of the repository; they are modelled from the spec (§4.2/§4.3)
as a canonical sorted interval representation, with the exact minimal
greedy CIDR decomposition.
-/

namespace UpdateWg

/-- The size of the IPv4 address space, `2^32`. -/
def addrSpace : Nat := 4294967296

/-- A CIDR block as `netaddr.IPNetwork` stores it: a base value and a prefix
length.  The base may have host bits set (netaddr keeps them until `.cidr`
masks them). -/
structure Cidr where
  base : Nat
  plen : Nat
deriving DecidableEq, Repr

/-- Number of addresses in a block of prefix length `p`. -/
def blockSize (p : Nat) : Nat := 2 ^ (32 - p)

/-- Last address of a block (after masking the base). -/
def blockEnd (b : Cidr) : Nat := b.base + blockSize b.plen - 1

/-- A block is prefix-aligned when all host bits of its base are zero. -/
def Aligned (b : Cidr) : Prop := b.base % blockSize b.plen = 0

instance (b : Cidr) : Decidable (Aligned b) := by
  unfold Aligned; infer_instance

/-- Address membership in an (aligned) block. -/
def memBlock (b : Cidr) (n : Nat) : Prop := b.base ≤ n ∧ n ≤ blockEnd b

instance (b : Cidr) (n : Nat) : Decidable (memBlock b n) := by
  unfold memBlock; infer_instance

/-- `base & netmask(p)`: clear the host bits of `ip` for prefix length `p`
(what `IPNetwork.cidr` does). -/
def maskBase (ip p : Nat) : Nat := ip - ip % blockSize p

/-- Largest exponent `j ≤ k` with `2^j ∣ n` (structural, kernel-reducible). -/
def alignExpAux : Nat → Nat → Nat
  | 0, _ => 0
  | k+1, n => if n % 2 ^ (k+1) = 0 then k+1 else alignExpAux k n

/-- Largest exponent `e ≤ k` with `2^e ≤ len` (`0` if `len = 0`). -/
def fitExpAux : Nat → Nat → Nat
  | 0, _ => 0
  | k+1, len => if 2 ^ (k+1) ≤ len then k+1 else fitExpAux k len

/-- The greedy step of range-to-CIDR conversion: the largest power of two
`s` such that `s` divides `cur` (alignment) and `[cur, cur+s-1] ⊆ [cur, fin]`
(fit), as an exponent. -/
def chooseExp (cur fin : Nat) : Nat :=
  min (alignExpAux 32 cur) (fitExpAux 32 (fin + 1 - cur))

/-- Greedy range-to-CIDR decomposition (models `netaddr.iprange_to_cidrs`,
spec §4.2: repeatedly emit the largest aligned block that fits, i.e. the
exact minimal CIDR cover of `[cur, fin]`).  `fuel` is an upper bound on the
number of steps; each step advances `cur` by at least one. -/
def rangeToCidrAux : Nat → Nat → Nat → List Cidr
  | 0, _, _ => []
  | fuel+1, cur, fin =>
    if fin < cur then []
    else
      let e := chooseExp cur fin
      ⟨cur, 32 - e⟩ :: rangeToCidrAux fuel (cur + 2 ^ e) fin

/-- `RangeToCidr`: the minimal exact CIDR cover of `[start, fin]`. -/
def rangeToCidr (start fin : Nat) : List Cidr :=
  rangeToCidrAux (fin + 1 - start) start fin

/-- Two ordered aligned blocks can merge into one larger aligned block
exactly when they are the two halves of a common parent: equal prefix
lengths, back-to-back, and the first one aligned at the parent's prefix
(the union of any other ordered pair is not a single aligned block, since
a sum of two unequal powers of two is not a power of two). -/
def mergeable (b1 b2 : Cidr) : Prop :=
  b1.plen = b2.plen ∧ 1 ≤ b1.plen ∧
  b2.base = b1.base + blockSize b1.plen ∧
  b1.base % blockSize (b1.plen - 1) = 0

instance (b1 b2 : Cidr) : Decidable (mergeable b1 b2) := by
  unfold mergeable; infer_instance

/-- Invariant of the greedy decomposition: the list tiles `[cur, fin]`
left to right, each block being the greedy (maximal aligned fitting) block
at its own base. -/
def Tiling (fin : Nat) : Nat → List Cidr → Prop
  | cur, [] => cur = fin + 1
  | cur, b :: bs =>
    b.base = cur ∧ b.plen = 32 - chooseExp cur fin ∧
    cur + 2 ^ chooseExp cur fin - 1 ≤ fin ∧
    Tiling fin (cur + 2 ^ chooseExp cur fin) bs

/-! ## Token parsing and printing

Models the parsing the scripts obtain from `netaddr` (`IPNetwork(item)`:
a bare dotted quad becomes a `/32`, `a.b.c.d/n` keeps its host bits,
anything else raises) and the printing `str(net)` performs.  Implemented
over `List Char` so that the kernel can evaluate concrete runs. -/

/-- Split a character list at every occurrence of `c` (like Python's
`str.split`): always returns at least one group. -/
def splitOnChar (c : Char) : List Char → List (List Char)
  | [] => [[]]
  | x :: xs =>
    if x = c then [] :: splitOnChar c xs
    else
      match splitOnChar c xs with
      | [] => [[x]]
      | g :: gs => (x :: g) :: gs

/-- Decimal digit value of a character, if it is a digit. -/
def digitVal (c : Char) : Option Nat :=
  if '0' ≤ c ∧ c ≤ '9' then some (c.toNat - 48) else none

/-- Parse a non-empty all-digit character list as a natural number. -/
def parseNatChars (l : List Char) : Option Nat :=
  match l with
  | [] => none
  | _ => go l 0
where
  go : List Char → Nat → Option Nat
    | [], acc => some acc
    | c :: cs, acc =>
      match digitVal c with
      | some d => go cs (acc * 10 + d)
      | none => none

/-- Parse one dotted-quad octet (`0..255`). -/
def parseOctet (l : List Char) : Option Nat :=
  match parseNatChars l with
  | some n => if n ≤ 255 then some n else none
  | none => none

/-- Parse a dotted-quad IPv4 address into its 32-bit value. -/
def parseIPv4Chars (l : List Char) : Option Nat :=
  match splitOnChar '.' l with
  | [a, b, c, d] =>
    match parseOctet a, parseOctet b, parseOctet c, parseOctet d with
    | some x, some y, some z, some w => some (((x * 256 + y) * 256 + z) * 256 + w)
    | _, _, _, _ => none
  | _ => none

/-- Parse a token as `netaddr.IPNetwork` does: `a.b.c.d` (prefix 32) or
`a.b.c.d/n` with `0 ≤ n ≤ 32`; host bits of the base are kept. -/
def parseCidrStr (s : String) : Option Cidr :=
  match splitOnChar '/' s.data with
  | [ip] => (parseIPv4Chars ip).map fun v => ⟨v, 32⟩
  | [ip, p] =>
    match parseIPv4Chars ip, parseNatChars p with
    | some v, some n => if n ≤ 32 then some ⟨v, n⟩ else none
    | _, _ => none
  | _ => none

/-- The character of a decimal digit. -/
def digitChar (d : Nat) : Char := Char.ofNat (48 + d)

/-- Decimal digits of a number below 1000 (enough for octets and prefix
lengths). -/
def smallNatChars (n : Nat) : List Char :=
  if n < 10 then [digitChar n]
  else if n < 100 then [digitChar (n / 10), digitChar (n % 10)]
  else [digitChar (n / 100), digitChar (n / 10 % 10), digitChar (n % 10)]

/-- Dotted-quad rendering of a 32-bit value (`str(IPAddress)`). -/
def printIPv4Chars (n : Nat) : List Char :=
  smallNatChars (n / 16777216 % 256) ++ '.' ::
  (smallNatChars (n / 65536 % 256) ++ '.' ::
  (smallNatChars (n / 256 % 256) ++ '.' :: smallNatChars (n % 256)))

/-- `str(IPNetwork)`: `a.b.c.d/n` (host bits kept, as netaddr prints them). -/
def printCidr (b : Cidr) : String :=
  ⟨printIPv4Chars b.base ++ '/' :: smallNatChars b.plen⟩

/-! ## Source-file line handling and the aggregator -/

/-- Whitespace stripping of one line (Python's `str.strip` on the ASCII
whitespace that can occur in these files). -/
def isSpaceChar (c : Char) : Bool :=
  c = ' ' ∨ c = '\t' ∨ c = '\n' ∨ c = '\r'

/-- `line.strip()`. -/
def stripStr (s : String) : String :=
  ⟨((s.data.dropWhile isSpaceChar).reverse.dropWhile isSpaceChar).reverse⟩

/-- A stripped line is kept when it is non-empty and not a comment. -/
def keptLine (s : String) : Bool :=
  match s.data with
  | [] => false
  | c :: _ => c ≠ '#'

/-- `read_cidrs_from_file`, on the file's lines: strip each line, keep the
non-empty non-comment ones (a missing file is the empty line list). -/
def read_cidrs_from_file (lines : List String) : List String :=
  (lines.map stripStr).filter keptLine

/-- `normalize_ripe_ipv4_list`: a token containing `-` is split into
`start-end` and expanded by `iprange_to_cidrs` (two fields required,
`start ≤ end`, both bare addresses — anything else raises and the token is
logged and skipped); otherwise the token is parsed as a network and
reprinted.  Malformed tokens are skipped, never fatal. -/
def normalize_ripe_ipv4_list (l : List String) : List String :=
  l.flatMap fun item =>
    if (stripStr item).data.contains '-' then
      match splitOnChar '-' (stripStr item).data with
      | [s1, s2] =>
        match parseIPv4Chars s1, parseIPv4Chars s2 with
        | some a, some b => if a ≤ b then (rangeToCidr a b).map printCidr else []
        | _, _ => []
      | _ => []
    else
      match parseCidrStr (stripStr item) with
      | some bl => [printCidr bl]
      | none => []

/-- One loop iteration of `expand_small_networks`: parse the token; a block
narrower than the cutoff has its prefix length set to the cutoff (raising —
hence skipping the token — when the cutoff is not a valid IPv4 prefix
length) and is masked by `.cidr`; otherwise the block passes through as
`str(net)` prints it.  An unparsable token is logged and skipped. -/
def expandItem (cutoff : Int) (item : String) : Option String :=
  match parseCidrStr item with
  | none => none
  | some b =>
    if (b.plen : Int) > cutoff then
      if 0 ≤ cutoff ∧ cutoff ≤ 32 then
        some (printCidr ⟨maskBase b.base cutoff.toNat, cutoff.toNat⟩)
      else none
    else some (printCidr b)

/-- `expand_small_networks`: each token processed by `expandItem`, skipped
tokens dropped. -/
def expand_small_networks (l : List String) (cutoff : Int) : List String :=
  l.filterMap (expandItem cutoff)

/-! ## Canonical address sets (the `netaddr.IPSet` semantics, spec §4.3)

An address set is a sorted list of disjoint, non-adjacent, inclusive
intervals `(lo, hi)`.  `IPSet` construction folds blocks in with merging
(`insertRange`); union folds one set into the other; difference subtracts
interval by interval; `iter_cidrs` decomposes each interval by
`rangeToCidr`. -/

/-- An inclusive address interval. -/
abbrev Range := Nat × Nat

/-- Membership of an address in an interval list. -/
def memR (n : Nat) (rs : List Range) : Prop :=
  ∃ r ∈ rs, r.1 ≤ n ∧ n ≤ r.2

instance (n : Nat) (rs : List Range) : Decidable (memR n rs) := by
  unfold memR; infer_instance

/-- Canonical-form invariant with an explicit lower bound: the intervals
are well-formed, sorted, and separated by a gap of at least one address
(so no two are adjacent-and-mergeable). -/
def OkFrom : Nat → List Range → Prop
  | _, [] => True
  | lb, r :: rest => lb ≤ r.1 ∧ r.1 ≤ r.2 ∧ OkFrom (r.2 + 2) rest

instance (lb : Nat) (rs : List Range) : Decidable (OkFrom lb rs) := by
  induction rs generalizing lb with
  | nil => exact .isTrue trivial
  | cons r rest ih => exact @instDecidableAnd _ _ _ (@instDecidableAnd _ _ _ (ih _))

/-- Insert the interval `[lo, hi]` into an interval list, coalescing every
interval that overlaps or is adjacent to it. -/
def insertRange (lo hi : Nat) : List Range → List Range
  | [] => [(lo, hi)]
  | (a, b) :: rest =>
    if hi + 1 < a then (lo, hi) :: (a, b) :: rest
    else if b + 1 < lo then (a, b) :: insertRange lo hi rest
    else insertRange (min lo a) (max hi b) rest

/-- Remove `[x, y]` from every interval of the list. -/
def subRange (x y : Nat) : List Range → List Range
  | [] => []
  | (a, b) :: rest =>
    if b < x then (a, b) :: subRange x y rest
    else if y < a then (a, b) :: subRange x y rest
    else if a < x then
      if y < b then (a, x - 1) :: (y + 1, b) :: subRange x y rest
      else (a, x - 1) :: subRange x y rest
    else
      if y < b then (y + 1, b) :: subRange x y rest
      else subRange x y rest

/-- Union of two interval sets: fold the right one into the left one. -/
def unionR (A B : List Range) : List Range :=
  B.foldl (fun acc r => insertRange r.1 r.2 acc) A

/-- Difference of two interval sets: subtract each interval of `B`. -/
def diffR (A B : List Range) : List Range :=
  B.foldl (fun acc r => subRange r.1 r.2 acc) A

/-- The masked address interval of a block (how `IPSet` interprets an
`IPNetwork`, host bits cleared). -/
def cidrRange (b : Cidr) : Range :=
  (maskBase b.base b.plen, maskBase b.base b.plen + blockSize b.plen - 1)

/-- Parse every token, failing as a whole on the first malformed one
(`IPSet` construction raises on a malformed token). -/
def parseAll : List String → Option (List Cidr)
  | [] => some []
  | s :: rest =>
    match parseCidrStr s, parseAll rest with
    | some b, some bs => some (b :: bs)
    | _, _ => none

/-- `IPSet(strings)`: every token must parse (a malformed token raises),
and the blocks are folded into a canonical interval set. -/
def ipsetRanges (l : List String) : Option (List Range) :=
  (parseAll l).map fun bs =>
    bs.foldl (fun acc b => insertRange (cidrRange b).1 (cidrRange b).2 acc) []

/-- `IPSet.iter_cidrs()`: the canonical ordered block list of the set. -/
def iterCidrs (rs : List Range) : List Cidr :=
  rs.flatMap fun r => rangeToCidr r.1 r.2

/-- The universe `0.0.0.0/0` as an interval set. -/
def fullIPv4 : List Range := [(0, addrSpace - 1)]

/-- All interval ends below the end of the address space. -/
def BddR (rs : List Range) : Prop := ∀ r ∈ rs, r.2 < addrSpace

/-! ## The orchestrator (steps 1-7 of `main`) -/

/-- Steps 1-6 of `main` in `update-wg.py` (identically in
`update-wg-ipset.py`): read the local excludes unchanged, aggregate the
country feed to the cutoff, build the excluded `IPSet` (a parse failure

here is caught and the script exits), subtract from the full IPv4 space,
then union the include list back in (a parse failure there is an uncaught
exception — also fatal).  `Except.error` models the fatal exits. -/
def computeAllowed (excludeLines ripeList includeLines : List String)
    (cutoff : Int) : Except Unit (List Range) :=
  match ipsetRanges (read_cidrs_from_file excludeLines ++
      expand_small_networks (normalize_ripe_ipv4_list ripeList) cutoff) with
  | none => .error ()
  | some excludedSet =>
    match read_cidrs_from_file includeLines with
    | [] => .ok (diffR fullIPv4 excludedSet)
    | s :: rest =>
      match ipsetRanges (s :: rest) with
      | none => .error ()
      | some includeSet => .ok (unionR (diffR fullIPv4 excludedSet) includeSet)

/-- Step 7 of `main`: the final ordered list of allowed CIDR strings. -/
def computeAllowedStrings (excludeLines ripeList includeLines : List String)
    (cutoff : Int) : Except Unit (List String) :=
  (computeAllowed excludeLines ripeList includeLines cutoff).map
    fun rs => (iterCidrs rs).map printCidr

/-! ## Properties of the greedy decomposition -/

theorem alignExpAux_le (k n : Nat) : alignExpAux k n ≤ k := by
  induction k with
  | zero => simp [alignExpAux]
  | succ k ih =>
    unfold alignExpAux
    split
    · exact Nat.le_refl _
    · exact Nat.le_succ_of_le ih

theorem alignExpAux_mod (k n : Nat) : n % 2 ^ alignExpAux k n = 0 := by
  induction k with
  | zero => simp [alignExpAux, Nat.mod_one]
  | succ k ih =>
    unfold alignExpAux
    split
    · assumption
    · exact ih

theorem alignExpAux_max (k n : Nat) :
    ∀ i ≤ k, n % 2 ^ i = 0 → i ≤ alignExpAux k n := by
  induction k with
  | zero => intro i hi _; simpa [alignExpAux] using hi
  | succ k ih =>
    intro i hi hmod
    unfold alignExpAux
    split
    · exact hi
    · rename_i hne
      rcases Nat.lt_or_ge i (k+1) with h | h
      · exact ih i (Nat.lt_succ_iff.mp h) hmod
      · exact absurd hmod (by rw [Nat.le_antisymm hi h] at hmod ⊢; exact fun h' => hne hmod)

theorem fitExpAux_le (k n : Nat) : fitExpAux k n ≤ k := by
  induction k with
  | zero => simp [fitExpAux]
  | succ k ih =>
    unfold fitExpAux
    split
    · exact Nat.le_refl _
    · exact Nat.le_succ_of_le ih

theorem fitExpAux_fit (k n : Nat) (h : 1 ≤ n) : 2 ^ fitExpAux k n ≤ n := by
  induction k with
  | zero => simpa [fitExpAux]
  | succ k ih =>
    unfold fitExpAux
    split
    · assumption
    · exact ih

theorem fitExpAux_max (k n : Nat) :
    ∀ i ≤ k, 2 ^ i ≤ n → i ≤ fitExpAux k n := by
  induction k with
  | zero => intro i hi _; simpa [fitExpAux] using hi
  | succ k ih =>
    intro i hi hle
    unfold fitExpAux
    split
    · exact hi
    · rename_i hne
      rcases Nat.lt_or_ge i (k+1) with h | h
      · exact ih i (Nat.lt_succ_iff.mp h) hle
      · exact absurd hle (by rw [Nat.le_antisymm hi h]; exact hne)

theorem chooseExp_le (cur fin : Nat) : chooseExp cur fin ≤ 32 :=
  Nat.le_trans (Nat.min_le_left _ _) (alignExpAux_le _ _)

theorem chooseExp_mod (cur fin : Nat) : cur % 2 ^ chooseExp cur fin = 0 := by
  have hdvd : 2 ^ chooseExp cur fin ∣ 2 ^ alignExpAux 32 cur :=
    Nat.pow_dvd_pow 2 (Nat.min_le_left _ _)
  have h2 : (2 ^ alignExpAux 32 cur) ∣ cur :=
    Nat.dvd_of_mod_eq_zero (alignExpAux_mod 32 cur)
  exact Nat.mod_eq_zero_of_dvd (hdvd.trans h2)

theorem chooseExp_fit (cur fin : Nat) (h : cur ≤ fin) :
    cur + 2 ^ chooseExp cur fin - 1 ≤ fin := by
  have h1 : 2 ^ chooseExp cur fin ≤ 2 ^ fitExpAux 32 (fin + 1 - cur) :=
    Nat.pow_le_pow_right (by omega) (Nat.min_le_right _ _)
  have h2 : 2 ^ fitExpAux 32 (fin + 1 - cur) ≤ fin + 1 - cur :=
    fitExpAux_fit _ _ (by omega)
  omega

theorem chooseExp_max (cur fin : Nat) (h : cur ≤ fin) :
    ∀ i ≤ 32, cur % 2 ^ i = 0 → cur + 2 ^ i - 1 ≤ fin →
    i ≤ chooseExp cur fin := by
  intro i hi hmod hfit
  have hpos : 1 ≤ 2 ^ i := Nat.one_le_two_pow
  refine Nat.le_min.mpr ⟨alignExpAux_max 32 cur i hi hmod, fitExpAux_max 32 _ i hi ?_⟩
  omega

theorem chooseExp_pos (cur fin : Nat) : 1 ≤ 2 ^ chooseExp cur fin :=
  Nat.one_le_two_pow

theorem rangeToCidrAux_gt (fuel cur fin : Nat) (h : fin < cur) :
    rangeToCidrAux fuel cur fin = [] := by
  cases fuel with
  | zero => rfl
  | succ fuel => simp [rangeToCidrAux, h]

theorem rangeToCidrAux_tiling (fuel : Nat) :
    ∀ cur fin, cur ≤ fin → fin + 1 - cur ≤ fuel →
    Tiling fin cur (rangeToCidrAux fuel cur fin) := by
  induction fuel with
  | zero => intro cur fin h hf; omega
  | succ fuel ih =>
    intro cur fin h hf
    have hnot : ¬ fin < cur := Nat.not_lt.mpr h
    rw [rangeToCidrAux, if_neg hnot]
    have hpos := chooseExp_pos cur fin
    have hfit := chooseExp_fit cur fin h
    refine ⟨rfl, rfl, hfit, ?_⟩
    rcases Nat.lt_or_ge fin (cur + 2 ^ chooseExp cur fin) with hend | hcont
    · rw [rangeToCidrAux_gt fuel _ _ hend]
      show cur + 2 ^ chooseExp cur fin = fin + 1
      omega
    · exact ih _ fin (by omega) (by omega)

theorem rangeToCidr_tiling (start fin : Nat) (h : start ≤ fin) :
    Tiling fin start (rangeToCidr start fin) :=
  rangeToCidrAux_tiling _ start fin h (Nat.le_refl _)

theorem tiling_le (fin : Nat) :
    ∀ l cur, Tiling fin cur l → cur ≤ fin + 1 := by
  intro l
  induction l with
  | nil => intro cur ht; have h : cur = fin + 1 := ht; omega
  | cons b bs ih =>
    intro cur ht
    obtain ⟨-, -, hfit, -⟩ := ht
    have := chooseExp_pos cur fin
    omega

/-- Each block of a tiling is within `[cur, fin]` and has `blockSize` equal
to its greedy step. -/
theorem tiling_blocks (fin : Nat) :
    ∀ l cur, Tiling fin cur l →
    ∀ b ∈ l, cur ≤ b.base ∧ b.plen ≤ 32 ∧ Aligned b ∧
      blockEnd b ≤ fin ∧ blockSize b.plen = 2 ^ chooseExp b.base fin := by
  intro l
  induction l with
  | nil => intro cur _ b hb; cases hb
  | cons c bs ih =>
    intro cur ht b hb
    obtain ⟨hbase, hplen, hfit, hrest⟩ := ht
    have hle := chooseExp_le cur fin
    have hpos := chooseExp_pos cur fin
    have hsize : blockSize c.plen = 2 ^ chooseExp cur fin := by
      rw [hplen]; show 2 ^ (32 - (32 - chooseExp cur fin)) = _
      congr 1; omega
    rcases List.mem_cons.mp hb with hb | hb
    · subst hb
      refine ⟨Nat.le_of_eq hbase.symm, by omega, ?_, ?_, by rw [hbase]; exact hsize⟩
      · show b.base % blockSize b.plen = 0
        rw [hsize, hbase]; exact chooseExp_mod cur fin
      · show b.base + blockSize b.plen - 1 ≤ fin
        rw [hsize, hbase]; exact hfit
    · have := ih _ hrest b hb
      exact ⟨by omega, this.2⟩

/-- A tiling covers exactly `[cur, fin]`. -/
theorem tiling_mem (fin : Nat) :
    ∀ l cur, Tiling fin cur l →
    ∀ n, (∃ b ∈ l, memBlock b n) ↔ (cur ≤ n ∧ n ≤ fin) := by
  intro l
  induction l with
  | nil =>
    intro cur ht n
    have h : cur = fin + 1 := ht
    simp only [List.not_mem_nil, false_and, exists_false, false_iff]
    omega
  | cons c bs ih =>
    intro cur ht n
    obtain ⟨hbase, hplen, hfit, hrest⟩ := ht
    have hle := chooseExp_le cur fin
    have hpos := chooseExp_pos cur fin
    have hsize : blockSize c.plen = 2 ^ chooseExp cur fin := by
      rw [hplen]; show 2 ^ (32 - (32 - chooseExp cur fin)) = _
      congr 1; omega
    have hmemc : memBlock c n ↔ (cur ≤ n ∧ n ≤ cur + 2 ^ chooseExp cur fin - 1) := by
      unfold memBlock blockEnd
      rw [hsize, hbase]
    have hih := ih _ hrest n
    constructor
    · rintro ⟨b, hb, hmem⟩
      rcases List.mem_cons.mp hb with hb | hb
      · subst hb; have := hmemc.mp hmem; omega
      · have := hih.mp ⟨b, hb, hmem⟩; omega
    · intro hn
      rcases le_or_lt n (cur + 2 ^ chooseExp cur fin - 1) with hsmall | hbig
      · exact ⟨c, List.mem_cons_self _ _, hmemc.mpr ⟨hn.1, hsmall⟩⟩
      · obtain ⟨b, hb, hmem⟩ := hih.mpr ⟨by omega, hn.2⟩
        exact ⟨b, List.mem_cons_of_mem _ hb, hmem⟩

/-- The blocks of a tiling are strictly increasing and pairwise disjoint. -/
theorem tiling_pairwise (fin : Nat) :
    ∀ l cur, Tiling fin cur l →
    List.Pairwise (fun b1 b2 => blockEnd b1 < b2.base) l := by
  intro l
  induction l with
  | nil => intro _ _; exact List.Pairwise.nil
  | cons c bs ih =>
    intro cur ht
    obtain ⟨hbase, hplen, hfit, hrest⟩ := ht
    have hle := chooseExp_le cur fin
    have hpos := chooseExp_pos cur fin
    have hsize : blockSize c.plen = 2 ^ chooseExp cur fin := by
      rw [hplen]; show 2 ^ (32 - (32 - chooseExp cur fin)) = _
      congr 1; omega
    refine List.Pairwise.cons ?_ (ih _ hrest)
    intro b hb
    have := (tiling_blocks fin bs _ hrest b hb).1
    show blockEnd c < b.base
    unfold blockEnd
    rw [hsize, hbase]
    omega

/-- No two adjacent blocks of a greedy tiling can merge into one larger
aligned block: the greedy step is maximal. -/
theorem tiling_chain_nomerge (fin : Nat) :
    ∀ l cur, Tiling fin cur l →
    List.Chain' (fun b1 b2 => ¬ mergeable b1 b2) l := by
  intro l
  induction l with
  | nil => intro _ _; exact List.chain'_nil
  | cons c bs ih =>
    intro cur ht
    obtain ⟨hbase, hplen, hfit, hrest⟩ := ht
    cases bs with
    | nil => exact List.chain'_singleton _
    | cons d ds =>
      refine List.chain'_cons.mpr ⟨?_, ih _ hrest⟩
      intro hm
      obtain ⟨hpl, hpl1, hadj, halign⟩ := hm
      obtain ⟨hdbase, hdplen, hdfit, -⟩ := hrest
      have hle := chooseExp_le cur fin
      have hpos := chooseExp_pos cur fin
      have hcur : cur ≤ fin := by omega
      -- sizes of the two blocks
      have hsize : blockSize c.plen = 2 ^ chooseExp cur fin := by
        rw [hplen]; show 2 ^ (32 - (32 - chooseExp cur fin)) = _
        congr 1; omega
      -- the parent block is one prefix level up
      have hplen' : c.plen = 32 - chooseExp cur fin := hplen
      have hexp : chooseExp cur fin ≤ 31 := by omega
      have hparent : blockSize (c.plen - 1) = 2 ^ (chooseExp cur fin + 1) := by
        rw [hplen']; show 2 ^ (32 - (32 - chooseExp cur fin - 1)) = _
        congr 1; omega
      -- the second block has the same greedy size and ends within fin
      have hdsize : 2 ^ chooseExp (cur + 2 ^ chooseExp cur fin) fin
          = 2 ^ chooseExp cur fin := by
        have h1 : d.plen = 32 - chooseExp (cur + 2 ^ chooseExp cur fin) fin := hdplen
        have h2 : d.plen = c.plen := hpl.symm
        have hle2 := chooseExp_le (cur + 2 ^ chooseExp cur fin) fin
        rw [hplen'] at h2
        congr 1
        omega
      -- so the parent fits in [cur, fin] and is aligned: contradiction with
      -- maximality of the greedy choice at cur
      have hmax := chooseExp_max cur fin hcur (chooseExp cur fin + 1) (by omega)
        (by rw [hparent] at halign; rw [hbase] at halign; exact halign)
        (by rw [pow_succ]; omega)
      omega

/-! ## Properties of the canonical interval sets -/

theorem OkFrom_mono {lb lb' : Nat} {rs : List Range} (h : lb' ≤ lb)
    (hok : OkFrom lb rs) : OkFrom lb' rs := by
  cases rs with
  | nil => trivial
  | cons r rest =>
    obtain ⟨h1, h2, h3⟩ := hok
    exact ⟨by omega, h2, h3⟩

theorem OkFrom_wf {lb : Nat} {rs : List Range} (hok : OkFrom lb rs) :
    ∀ r ∈ rs, lb ≤ r.1 ∧ r.1 ≤ r.2 := by
  induction rs generalizing lb with
  | nil => intro r hr; cases hr
  | cons s rest ih =>
    intro r hr
    obtain ⟨h1, h2, h3⟩ := hok
    rcases List.mem_cons.mp hr with hr | hr
    · subst hr; exact ⟨h1, h2⟩
    · have := ih h3 r hr; omega

theorem memR_nil (n : Nat) : ¬ memR n [] := by
  rintro ⟨r, hr, -⟩; cases hr

theorem memR_cons {n : Nat} {r : Range} {rs : List Range} :
    memR n (r :: rs) ↔ (r.1 ≤ n ∧ n ≤ r.2) ∨ memR n rs := by
  constructor
  · rintro ⟨s, hs, hmem⟩
    rcases List.mem_cons.mp hs with hs | hs
    · subst hs; exact Or.inl hmem
    · exact Or.inr ⟨s, hs, hmem⟩
  · rintro (h | ⟨s, hs, hmem⟩)
    · exact ⟨r, List.mem_cons_self _ _, h⟩
    · exact ⟨s, List.mem_cons_of_mem _ hs, hmem⟩

theorem memR_lt {lb n : Nat} {rs : List Range} (hok : OkFrom lb rs)
    (hn : n < lb) : ¬ memR n rs := by
  rintro ⟨r, hr, h1, h2⟩
  have := (OkFrom_wf hok r hr).1
  omega

theorem insertRange_mem (lo hi n : Nat) :
    ∀ rs, (∀ r ∈ rs, r.1 ≤ r.2) → lo ≤ hi →
    (memR n (insertRange lo hi rs) ↔ (lo ≤ n ∧ n ≤ hi) ∨ memR n rs) := by
  intro rs
  induction rs generalizing lo hi with
  | nil =>
    intro _ _
    show memR n [(lo, hi)] ↔ _
    rw [memR_cons]
  | cons r rest ih =>
    rintro hwf hlohi
    obtain ⟨a, b⟩ := r
    have hab : a ≤ b := hwf (a, b) (List.mem_cons_self _ _)
    have hwfrest : ∀ r ∈ rest, r.1 ≤ r.2 :=
      fun r hr => hwf r (List.mem_cons_of_mem _ hr)
    unfold insertRange
    split
    · rename_i h1
      exact memR_cons
    · split
      · rename_i h1 h2
        rw [memR_cons, ih lo hi hwfrest hlohi, memR_cons]
        tauto
      · rename_i h1 h2
        rw [ih (min lo a) (max hi b) hwfrest (by omega), memR_cons]
        constructor
        · rintro (h | h)
          · rcases Nat.lt_or_ge n a with hna | hna
            · left; omega
            · rcases le_or_lt n b with hnb | hnb
              · right; left; omega
              · left; omega
          · right; right; exact h
        · rintro (h | h | h)
          · left; omega
          · left; omega
          · right; exact h

theorem insertRange_ok (lo hi : Nat) :
    ∀ rs lb, OkFrom lb rs → lo ≤ hi →
    OkFrom (min lo lb) (insertRange lo hi rs) := by
  intro rs
  induction rs generalizing lo hi with
  | nil =>
    intro lb _ h
    exact ⟨by omega, h, trivial⟩
  | cons r rest ih =>
    rintro lb hok hlohi
    obtain ⟨a, b⟩ := r
    obtain ⟨h1, h2, h3⟩ := hok
    unfold insertRange
    split
    · rename_i hlt
      exact ⟨by omega, hlohi, by omega, h2, h3⟩
    · split
      · rename_i hlt hgt
        have := ih lo hi (b+2) h3 hlohi
        exact ⟨by omega, h2, OkFrom_mono (by omega) this⟩
      · rename_i hlt hgt
        have := ih (min lo a) (max hi b) (b+2) h3 (by omega)
        exact OkFrom_mono (by omega) this

theorem subRange_mem (x y n : Nat) :
    ∀ rs, memR n (subRange x y rs) ↔ (memR n rs ∧ ¬ (x ≤ n ∧ n ≤ y)) := by
  intro rs
  induction rs with
  | nil => simp [subRange, memR_nil n]
  | cons r rest ih =>
    obtain ⟨a, b⟩ := r
    unfold subRange
    split
    · rename_i h1
      simp only [memR_cons, ih]
      constructor
      · rintro (h | h)
        · exact ⟨Or.inl h, by omega⟩
        · exact ⟨Or.inr h.1, h.2⟩
      · rintro ⟨h | h, hn⟩
        · left; omega
        · right; exact ⟨h, hn⟩
    · split
      · rename_i h1 h2
        simp only [memR_cons, ih]
        constructor
        · rintro (h | h)
          · exact ⟨Or.inl h, by omega⟩
          · exact ⟨Or.inr h.1, h.2⟩
        · rintro ⟨h | h, hn⟩
          · left; omega
          · right; exact ⟨h, hn⟩
      · split
        · split
          · rename_i h1 h2 h3 h4
            simp only [memR_cons, ih]
            constructor
            · rintro (h | h | h)
              · exact ⟨Or.inl (by omega), by omega⟩
              · exact ⟨Or.inl (by omega), by omega⟩
              · exact ⟨Or.inr h.1, h.2⟩
            · rintro ⟨h | h, hn⟩
              · rcases Nat.lt_or_ge n x with hx | hx
                · left; omega
                · right; left; omega
              · right; right; exact ⟨h, hn⟩
          · rename_i h1 h2 h3 h4
            simp only [memR_cons, ih]
            constructor
            · rintro (h | h)
              · exact ⟨Or.inl (by omega), by omega⟩
              · exact ⟨Or.inr h.1, h.2⟩
            · rintro ⟨h | h, hn⟩
              · left; omega
              · right; exact ⟨h, hn⟩
        · split
          · rename_i h1 h2 h3 h4
            simp only [memR_cons, ih]
            constructor
            · rintro (h | h)
              · exact ⟨Or.inl (by omega), by omega⟩
              · exact ⟨Or.inr h.1, h.2⟩
            · rintro ⟨h | h, hn⟩
              · left; omega
              · right; exact ⟨h, hn⟩
          · rename_i h1 h2 h3 h4
            rw [ih]
            simp only [memR_cons]
            constructor
            · rintro ⟨h, hn⟩
              exact ⟨Or.inr h, hn⟩
            · rintro ⟨h | h, hn⟩
              · omega
              · exact ⟨h, hn⟩

theorem subRange_ok (x y : Nat) (hxy : x ≤ y) :
    ∀ rs lb, OkFrom lb rs → OkFrom lb (subRange x y rs) := by
  intro rs
  induction rs with
  | nil => intro lb _; trivial
  | cons r rest ih =>
    rintro lb hok
    obtain ⟨a, b⟩ := r
    obtain ⟨h1, h2, h3⟩ := hok
    unfold subRange
    split
    · exact ⟨h1, h2, ih _ h3⟩
    · split
      · exact ⟨h1, h2, ih _ h3⟩
      · split
        · split
          · rename_i h4 h5 h6 h7
            exact ⟨h1, by omega, by omega, by omega,
              OkFrom_mono (by omega) (ih _ h3)⟩
          · rename_i h4 h5 h6 h7
            exact ⟨h1, by omega, OkFrom_mono (by omega) (ih _ h3)⟩
        · split
          · rename_i h4 h5 h6 h7
            exact ⟨by omega, by omega, OkFrom_mono (by omega) (ih _ h3)⟩
          · rename_i h4 h5 h6 h7
            exact OkFrom_mono (by omega) (ih _ h3)

/-- Canonical extensionality: two canonical interval lists with the same
members are equal. -/
theorem okFrom_ext :
    ∀ rs ss lb, OkFrom lb rs → OkFrom lb ss →
    (∀ n, memR n rs ↔ memR n ss) → rs = ss := by
  intro rs
  induction rs with
  | nil =>
    intro ss lb _ hss hmem
    cases ss with
    | nil => rfl
    | cons s rest =>
      obtain ⟨-, h2, -⟩ := hss
      have : memR s.1 (s :: rest) := memR_cons.mpr (Or.inl ⟨Nat.le_refl _, h2⟩)
      exact absurd ((hmem s.1).mpr this) (memR_nil s.1)
  | cons r rs' ih =>
    intro ss lb hrs hss hmem
    cases ss with
    | nil =>
      obtain ⟨-, h2, -⟩ := hrs
      have : memR r.1 (r :: rs') := memR_cons.mpr (Or.inl ⟨Nat.le_refl _, h2⟩)
      exact absurd ((hmem r.1).mp this) (memR_nil r.1)
    | cons s ss' =>
      obtain ⟨ha1, ha2, ha3⟩ := hrs
      obtain ⟨hb1, hb2, hb3⟩ := hss
      -- the two head starts are the minima of the same set
      have hstart : r.1 = s.1 := by
        have hrmem : memR r.1 (s :: ss') :=
          (hmem r.1).mp (memR_cons.mpr (Or.inl ⟨Nat.le_refl _, ha2⟩))
        have hsmem : memR s.1 (r :: rs') :=
          (hmem s.1).mpr (memR_cons.mpr (Or.inl ⟨Nat.le_refl _, hb2⟩))
        rcases memR_cons.mp hrmem with h | h
        · rcases memR_cons.mp hsmem with h' | h'
          · omega
          · obtain ⟨t, ht, ht1, ht2⟩ := h'
            have := (OkFrom_wf ha3 _ ht).1
            omega
        · obtain ⟨t, ht, ht1, ht2⟩ := h
          have := (OkFrom_wf hb3 _ ht).1
          rcases memR_cons.mp hsmem with h' | h'
          · omega
          · obtain ⟨u, hu, hu1, hu2⟩ := h'
            have := (OkFrom_wf ha3 _ hu).1
            omega
      -- the two head ends agree, else one side contains end+1, the other not
      have hend : r.2 = s.2 := by
        by_contra hne
        rcases Nat.lt_or_ge r.2 s.2 with hlt | hge
        · have hmem' : memR (r.2 + 1) (s :: ss') :=
            memR_cons.mpr (Or.inl ⟨by omega, by omega⟩)
          rcases memR_cons.mp ((hmem _).mpr hmem') with h | h
          · omega
          · obtain ⟨t, ht, ht1, ht2⟩ := h
            have := (OkFrom_wf ha3 _ ht).1
            omega
        · have hlt : s.2 < r.2 := by omega
          have hmem' : memR (s.2 + 1) (r :: rs') :=
            memR_cons.mpr (Or.inl ⟨by omega, by omega⟩)
          rcases memR_cons.mp ((hmem _).mp hmem') with h | h
          · omega
          · obtain ⟨t, ht, ht1, ht2⟩ := h
            have := (OkFrom_wf hb3 _ ht).1
            omega
      -- heads equal; tails have equal membership
      have htails : ∀ n, memR n rs' ↔ memR n ss' := by
        intro n
        rcases Nat.lt_or_ge n (r.2 + 2) with hn | hn
        · constructor
          · intro h; exact absurd h (memR_lt ha3 hn)
          · intro h; exact absurd h (memR_lt hb3 (by omega))
        · constructor
          · intro h
            rcases memR_cons.mp ((hmem n).mp (memR_cons.mpr (Or.inr h))) with h' | h'
            · omega
            · exact h'
          · intro h
            rcases memR_cons.mp ((hmem n).mpr (memR_cons.mpr (Or.inr h))) with h' | h'
            · omega
            · exact h'
      have : rs' = ss' := ih ss' (r.2 + 2) ha3 (by rw [hend]; exact hb3) htails
      have hr : r = s := Prod.ext hstart hend
      rw [hr, this]

/-! ## Union, difference and `IPSet` construction -/

theorem insertRange_bdd {lo hi : Nat} {rs : List Range} (hb : BddR rs)
    (hhi : hi < addrSpace) : BddR (insertRange lo hi rs) := by
  induction rs generalizing lo hi with
  | nil =>
    rintro r hr
    rcases List.mem_cons.mp hr with hr | hr
    · subst hr; exact hhi
    · cases hr
  | cons s rest ih =>
    obtain ⟨a, b⟩ := s
    have hb' : BddR rest := fun r hr => hb r (List.mem_cons_of_mem _ hr)
    have hab : b < addrSpace := hb (a, b) (List.mem_cons_self _ _)
    unfold insertRange
    split
    · rintro r hr
      rcases List.mem_cons.mp hr with hr | hr
      · subst hr; exact hhi
      · exact hb r hr
    · split
      · rintro r hr
        rcases List.mem_cons.mp hr with hr | hr
        · subst hr; exact hab
        · exact ih hb' hhi r hr
      · exact ih hb' (by omega)

theorem subRange_bdd {x y : Nat} {rs : List Range} (hb : BddR rs) :
    BddR (subRange x y rs) := by
  induction rs with
  | nil => rintro r hr; cases hr
  | cons s rest ih =>
    obtain ⟨a, b⟩ := s
    have hb' : BddR rest := fun r hr => hb r (List.mem_cons_of_mem _ hr)
    have hab : b < addrSpace := hb (a, b) (List.mem_cons_self _ _)
    unfold subRange
    split
    · rintro r hr
      rcases List.mem_cons.mp hr with hr | hr
      · subst hr; exact hab
      · exact ih hb' r hr
    · split
      · rintro r hr
        rcases List.mem_cons.mp hr with hr | hr
        · subst hr; exact hab
        · exact ih hb' r hr
      · split
        · split
          · rintro r hr
            rcases List.mem_cons.mp hr with hr | hr
            · subst hr; omega
            · rcases List.mem_cons.mp hr with hr | hr
              · subst hr; exact hab
              · exact ih hb' r hr
          · rintro r hr
            rcases List.mem_cons.mp hr with hr | hr
            · subst hr; omega
            · exact ih hb' r hr
        · split
          · rintro r hr
            rcases List.mem_cons.mp hr with hr | hr
            · subst hr; exact hab
            · exact ih hb' r hr
          · exact ih hb'

theorem insertRange_wf {lo hi : Nat} (hlohi : lo ≤ hi) :
    ∀ rs, (∀ r ∈ rs, r.1 ≤ r.2) →
    ∀ r ∈ insertRange lo hi rs, r.1 ≤ r.2 := by
  intro rs
  induction rs generalizing lo hi with
  | nil =>
    rintro _ r hr
    rcases List.mem_cons.mp hr with hr | hr
    · subst hr; exact hlohi
    · cases hr
  | cons s rest ih =>
    intro hwf
    obtain ⟨a, b⟩ := s
    have hab : a ≤ b := hwf (a, b) (List.mem_cons_self _ _)
    have hwf' : ∀ r ∈ rest, r.1 ≤ r.2 :=
      fun r hr => hwf r (List.mem_cons_of_mem _ hr)
    unfold insertRange
    split
    · rintro r hr
      rcases List.mem_cons.mp hr with hr | hr
      · subst hr; exact hlohi
      · exact hwf r hr
    · split
      · rintro r hr
        rcases List.mem_cons.mp hr with hr | hr
        · subst hr; exact hab
        · exact ih (by omega) hwf' r hr
      · exact ih (by omega) hwf'

theorem unionR_mem (n : Nat) :
    ∀ B A, (∀ r ∈ B, r.1 ≤ r.2) → (∀ r ∈ A, r.1 ≤ r.2) →
    (memR n (unionR A B) ↔ memR n A ∨ memR n B) := by
  intro B
  induction B with
  | nil =>
    intro A _ _
    show memR n A ↔ _
    have h := memR_nil n
    tauto
  | cons r B ih =>
    intro A hB hA
    obtain ⟨a, b⟩ := r
    have hab : a ≤ b := hB (a, b) (List.mem_cons_self _ _)
    have hB' : ∀ r ∈ B, r.1 ≤ r.2 := fun r hr => hB r (List.mem_cons_of_mem _ hr)
    show memR n (unionR (insertRange a b A) B) ↔ _
    rw [ih (insertRange a b A) hB' (insertRange_wf hab A hA)]
    rw [insertRange_mem a b n A hA hab, memR_cons]
    tauto

theorem unionR_ok :
    ∀ B A, (∀ r ∈ B, r.1 ≤ r.2) → OkFrom 0 A → OkFrom 0 (unionR A B) := by
  intro B
  induction B with
  | nil => intro A _ h; exact h
  | cons r B ih =>
    intro A hB hA
    obtain ⟨a, b⟩ := r
    have hab : a ≤ b := hB (a, b) (List.mem_cons_self _ _)
    have hB' : ∀ r ∈ B, r.1 ≤ r.2 := fun r hr => hB r (List.mem_cons_of_mem _ hr)
    show OkFrom 0 (unionR (insertRange a b A) B)
    refine ih _ hB' ?_
    have := insertRange_ok a b A 0 hA hab
    exact OkFrom_mono (by omega) this

theorem unionR_bdd :
    ∀ B A, BddR A → BddR B → BddR (unionR A B) := by
  intro B
  induction B with
  | nil => intro A hA _; exact hA
  | cons r B ih =>
    intro A hA hB
    obtain ⟨a, b⟩ := r
    have hb : b < addrSpace := hB (a, b) (List.mem_cons_self _ _)
    have hB' : BddR B := fun r hr => hB r (List.mem_cons_of_mem _ hr)
    exact ih _ (insertRange_bdd hA hb) hB'

theorem diffR_mem (n : Nat) :
    ∀ B A, (∀ r ∈ B, r.1 ≤ r.2) →
    (memR n (diffR A B) ↔ memR n A ∧ ¬ memR n B) := by
  intro B
  induction B with
  | nil =>
    intro A _
    show memR n A ↔ _
    have h := memR_nil n
    tauto
  | cons r B ih =>
    intro A hB
    obtain ⟨x, y⟩ := r
    have hB' : ∀ r ∈ B, r.1 ≤ r.2 := fun r hr => hB r (List.mem_cons_of_mem _ hr)
    show memR n (diffR (subRange x y A) B) ↔ _
    rw [ih (subRange x y A) hB', subRange_mem, memR_cons]
    tauto

theorem diffR_ok :
    ∀ B A, (∀ r ∈ B, r.1 ≤ r.2) → OkFrom 0 A → OkFrom 0 (diffR A B) := by
  intro B
  induction B with
  | nil => intro A _ h; exact h
  | cons r B ih =>
    intro A hB hA
    obtain ⟨x, y⟩ := r
    have hxy : x ≤ y := hB (x, y) (List.mem_cons_self _ _)
    have hB' : ∀ r ∈ B, r.1 ≤ r.2 := fun r hr => hB r (List.mem_cons_of_mem _ hr)
    exact ih _ hB' (subRange_ok x y hxy A 0 hA)

theorem diffR_bdd :
    ∀ B A, BddR A → BddR (diffR A B) := by
  intro B
  induction B with
  | nil => intro A hA; exact hA
  | cons r B ih =>
    intro A hA
    obtain ⟨x, y⟩ := r
    exact ih _ (subRange_bdd hA)

/-- A block interval is well-formed. -/
theorem cidrRange_wf (b : Cidr) : (cidrRange b).1 ≤ (cidrRange b).2 := by
  show maskBase b.base b.plen ≤ maskBase b.base b.plen + blockSize b.plen - 1
  have : 1 ≤ blockSize b.plen := Nat.one_le_two_pow
  omega

/-- The interval set built by `IPSet` construction is canonical. -/
theorem ipsetRanges_ok {l : List String} {rs : List Range}
    (h : ipsetRanges l = some rs) : OkFrom 0 rs := by
  unfold ipsetRanges at h
  cases hp : parseAll l with
  | none => rw [hp] at h; cases h
  | some bs =>
    rw [hp] at h
    simp only [Option.map_some'] at h
    obtain rfl := Option.some.inj h
    suffices hgen : ∀ (bs : List Cidr) (acc : List Range), OkFrom 0 acc →
        OkFrom 0 (bs.foldl (fun acc b =>
          insertRange (cidrRange b).1 (cidrRange b).2 acc) acc) by
      exact hgen bs [] trivial
    intro bs
    induction bs with
    | nil => intro acc h; exact h
    | cons b bs ih =>
      intro acc hacc
      refine ih _ ?_
      have := insertRange_ok (cidrRange b).1 (cidrRange b).2 acc 0 hacc (cidrRange_wf b)
      exact OkFrom_mono (by omega) this

/-- Membership of the interval set built by `IPSet` construction. -/
theorem ipsetRanges_mem {l : List String} {rs : List Range} {bs : List Cidr}
    (hp : parseAll l = some bs)
    (h : ipsetRanges l = some rs) (n : Nat) :
    memR n rs ↔ ∃ b ∈ bs, (cidrRange b).1 ≤ n ∧ n ≤ (cidrRange b).2 := by
  unfold ipsetRanges at h
  rw [hp] at h
  simp only [Option.map_some'] at h
  obtain rfl := Option.some.inj h
  suffices hgen : ∀ (bs : List Cidr) (acc : List Range), (∀ r ∈ acc, r.1 ≤ r.2) →
      (memR n (bs.foldl (fun acc b =>
        insertRange (cidrRange b).1 (cidrRange b).2 acc) acc) ↔
      memR n acc ∨ ∃ b ∈ bs, (cidrRange b).1 ≤ n ∧ n ≤ (cidrRange b).2) by
    rw [hgen bs [] (by rintro r hr; cases hr)]
    have h := memR_nil n
    tauto
  intro bs
  induction bs with
  | nil =>
    intro acc _
    simp only [List.foldl_nil, List.not_mem_nil, false_and, exists_false, or_false]
  | cons b bs ih =>
    intro acc hacc
    simp only [List.foldl_cons]
    rw [ih _ (insertRange_wf (cidrRange_wf b) acc hacc)]
    rw [insertRange_mem _ _ n acc hacc (cidrRange_wf b)]
    simp only [List.mem_cons]
    constructor
    · rintro ((h | h) | h)
      · right; exact ⟨b, Or.inl rfl, h⟩
      · left; exact h
      · obtain ⟨c, hc, hmem⟩ := h
        right; exact ⟨c, Or.inr hc, hmem⟩
    · rintro (h | ⟨c, hc | hc, hmem⟩)
      · left; right; exact h
      · subst hc; left; left; exact hmem
      · right; exact ⟨c, hc, hmem⟩

/-! ## Parse/print round trip -/

theorem splitOnChar_ne_nil (c : Char) (l : List Char) : splitOnChar c l ≠ [] := by
  induction l with
  | nil => simp [splitOnChar]
  | cons x xs ih =>
    unfold splitOnChar
    split
    · simp
    · cases h : splitOnChar c xs with
      | nil => simp
      | cons g gs => simp

theorem splitOnChar_not_mem {c : Char} :
    ∀ {l : List Char}, c ∉ l → splitOnChar c l = [l] := by
  intro l
  induction l with
  | nil => intro _; rfl
  | cons x xs ih =>
    intro hmem
    have hx : x ≠ c := fun h => hmem (h ▸ List.mem_cons_self _ _)
    have hxs : c ∉ xs := fun h => hmem (List.mem_cons_of_mem _ h)
    unfold splitOnChar
    rw [if_neg hx, ih hxs]

theorem splitOnChar_append {c : Char} :
    ∀ {A : List Char}, c ∉ A → ∀ B,
    splitOnChar c (A ++ c :: B) = A :: splitOnChar c B := by
  intro A
  induction A with
  | nil =>
    intro _ B
    show splitOnChar c (c :: B) = [] :: splitOnChar c B
    simp only [splitOnChar]
    simp
  | cons x xs ih =>
    intro hmem B
    have hx : x ≠ c := fun h => hmem (h ▸ List.mem_cons_self _ _)
    have hxs : c ∉ xs := fun h => hmem (List.mem_cons_of_mem _ h)
    show splitOnChar c (x :: (xs ++ c :: B)) = (x :: xs) :: splitOnChar c B
    simp only [splitOnChar]
    rw [if_neg hx, ih hxs B]

set_option maxRecDepth 10000 in
theorem parseOctet_smallNat : ∀ n < 256, parseOctet (smallNatChars n) = some n := by
  decide

set_option maxRecDepth 10000 in
theorem smallNat_chars : ∀ n < 256, ∀ c ∈ smallNatChars n,
    c ≠ '.' ∧ c ≠ '/' ∧ c ≠ '-' := by
  decide

set_option maxRecDepth 10000 in
theorem parseNat_smallNat : ∀ n < 33, parseNatChars (smallNatChars n) = some n := by
  decide

theorem dot_not_mem_smallNat {n : Nat} (h : n < 256) : '.' ∉ smallNatChars n :=
  fun hc => (smallNat_chars n h _ hc).1 rfl

theorem slash_not_mem_smallNat {n : Nat} (h : n < 256) : '/' ∉ smallNatChars n :=
  fun hc => (smallNat_chars n h _ hc).2.1 rfl

theorem slash_not_mem_printIPv4 (n : Nat) : '/' ∉ printIPv4Chars n := by
  intro hc
  unfold printIPv4Chars at hc
  have h1 : n / 16777216 % 256 < 256 := Nat.mod_lt _ (by omega)
  have h2 : n / 65536 % 256 < 256 := Nat.mod_lt _ (by omega)
  have h3 : n / 256 % 256 < 256 := Nat.mod_lt _ (by omega)
  have h4 : n % 256 < 256 := Nat.mod_lt _ (by omega)
  simp only [List.mem_append, List.mem_cons] at hc
  rcases hc with h | h | h | h | h | h | h
  · exact slash_not_mem_smallNat h1 h
  · cases h
  · exact slash_not_mem_smallNat h2 h
  · cases h
  · exact slash_not_mem_smallNat h3 h
  · cases h
  · exact slash_not_mem_smallNat h4 h

theorem parseIPv4_print {n : Nat} (h : n < addrSpace) :
    parseIPv4Chars (printIPv4Chars n) = some n := by
  have h1 : n / 16777216 % 256 < 256 := Nat.mod_lt _ (by omega)
  have h2 : n / 65536 % 256 < 256 := Nat.mod_lt _ (by omega)
  have h3 : n / 256 % 256 < 256 := Nat.mod_lt _ (by omega)
  have h4 : n % 256 < 256 := Nat.mod_lt _ (by omega)
  unfold parseIPv4Chars printIPv4Chars
  rw [splitOnChar_append (dot_not_mem_smallNat h1),
      splitOnChar_append (dot_not_mem_smallNat h2),
      splitOnChar_append (dot_not_mem_smallNat h3),
      splitOnChar_not_mem (dot_not_mem_smallNat h4)]
  show (match parseOctet (smallNatChars (n / 16777216 % 256)),
      parseOctet (smallNatChars (n / 65536 % 256)),
      parseOctet (smallNatChars (n / 256 % 256)),
      parseOctet (smallNatChars (n % 256)) with
    | some x, some y, some z, some w => some (((x * 256 + y) * 256 + z) * 256 + w)
    | _, _, _, _ => none) = some n
  rw [parseOctet_smallNat _ h1, parseOctet_smallNat _ h2,
      parseOctet_smallNat _ h3, parseOctet_smallNat _ h4]
  show some _ = some n
  congr 1
  have hn : n < 4294967296 := h
  omega

theorem printCidr_parse {b : Cidr} (hbase : b.base < addrSpace)
    (hplen : b.plen ≤ 32) : parseCidrStr (printCidr b) = some b := by
  show (match splitOnChar '/' (printIPv4Chars b.base ++ '/' :: smallNatChars b.plen) with
    | [ip] => (parseIPv4Chars ip).map fun v => (⟨v, 32⟩ : Cidr)
    | [ip, p] =>
      match parseIPv4Chars ip, parseNatChars p with
      | some v, some n => if n ≤ 32 then some ⟨v, n⟩ else none
      | _, _ => none
    | _ => none) = some b
  rw [splitOnChar_append (slash_not_mem_printIPv4 b.base),
      splitOnChar_not_mem (@slash_not_mem_smallNat b.plen (by omega))]
  show (match parseIPv4Chars (printIPv4Chars b.base), parseNatChars (smallNatChars b.plen) with
      | some v, some n => if n ≤ 32 then some (⟨v, n⟩ : Cidr) else none
      | _, _ => none) = some b
  rw [parseIPv4_print hbase, parseNat_smallNat _ (by omega)]
  show (if b.plen ≤ 32 then some (⟨b.base, b.plen⟩ : Cidr) else none) = some b
  rw [if_pos hplen]

theorem parseOctet_le {l : List Char} {x : Nat}
    (h : parseOctet l = some x) : x ≤ 255 := by
  unfold parseOctet at h
  split at h
  · split at h
    · obtain rfl := Option.some.inj h
      assumption
    · cases h
  · cases h

theorem parseIPv4_lt {l : List Char} {v : Nat}
    (h : parseIPv4Chars l = some v) : v < addrSpace := by
  unfold parseIPv4Chars at h
  split at h
  · rename_i a b c d heq
    cases ha : parseOctet a with
    | none => rw [ha] at h; cases h
    | some x =>
      cases hb : parseOctet b with
      | none => rw [ha, hb] at h; cases h
      | some y =>
        cases hc : parseOctet c with
        | none => rw [ha, hb, hc] at h; cases h
        | some z =>
          cases hd : parseOctet d with
          | none => rw [ha, hb, hc, hd] at h; cases h
          | some w =>
            rw [ha, hb, hc, hd] at h
            have hx := parseOctet_le ha
            have hy := parseOctet_le hb
            have hz := parseOctet_le hc
            have hw := parseOctet_le hd
            have hv : v = ((x * 256 + y) * 256 + z) * 256 + w :=
              (Option.some.inj h).symm
            show v < 4294967296
            omega
  · cases h

theorem parseCidr_bounds {s : String} {b : Cidr}
    (h : parseCidrStr s = some b) : b.base < addrSpace ∧ b.plen ≤ 32 := by
  unfold parseCidrStr at h
  split at h
  · rename_i ip heq
    cases hip : parseIPv4Chars ip with
    | none => rw [hip] at h; cases h
    | some v =>
      rw [hip] at h
      simp only [Option.map_some'] at h
      obtain rfl := Option.some.inj h
      exact ⟨parseIPv4_lt hip, by simp⟩
  · rename_i ip p heq
    cases hip : parseIPv4Chars ip with
    | none => rw [hip] at h; cases h
    | some v =>
      cases hp : parseNatChars p with
      | none => rw [hip, hp] at h; cases h
      | some m =>
        rw [hip, hp] at h
        have h' : (if m ≤ 32 then some (⟨v, m⟩ : Cidr) else none) = some b := h
        split at h'
        · obtain rfl := Option.some.inj h'
          exact ⟨parseIPv4_lt hip, by assumption⟩
        · cases h'
  · cases h

/-! ## Bounds of parsed blocks and of the pipeline sets -/

theorem maskBase_eq_mul (ip p : Nat) :
    maskBase ip p = blockSize p * (ip / blockSize p) := by
  have h := Nat.div_add_mod ip (blockSize p)
  unfold maskBase
  omega

theorem cidrRange_bdd {b : Cidr} (hbase : b.base < addrSpace)
    (hplen : b.plen ≤ 32) : (cidrRange b).2 < addrSpace := by
  show maskBase b.base b.plen + blockSize b.plen - 1 < addrSpace
  have hmul : blockSize b.plen * 2 ^ b.plen = addrSpace := by
    show 2 ^ (32 - b.plen) * 2 ^ b.plen = addrSpace
    rw [← pow_add]
    have h32 : 32 - b.plen + b.plen = 32 := by omega
    rw [h32]
    rfl
  have hq : b.base / blockSize b.plen < 2 ^ b.plen := by
    apply Nat.div_lt_of_lt_mul
    rw [hmul]
    exact hbase
  have h1 : 1 ≤ blockSize b.plen := Nat.one_le_two_pow
  rw [maskBase_eq_mul]
  have hfin : blockSize b.plen * (b.base / blockSize b.plen) + blockSize b.plen ≤
      addrSpace := by
    calc blockSize b.plen * (b.base / blockSize b.plen) + blockSize b.plen
        = blockSize b.plen * (b.base / blockSize b.plen + 1) := by ring
      _ ≤ blockSize b.plen * 2 ^ b.plen := Nat.mul_le_mul_left _ (by omega)
      _ = addrSpace := hmul
  omega

theorem parseAll_bounds :
    ∀ {l : List String} {bs : List Cidr}, parseAll l = some bs →
    ∀ b ∈ bs, b.base < addrSpace ∧ b.plen ≤ 32 := by
  intro l
  induction l with
  | nil =>
    intro bs h b hb
    obtain rfl := Option.some.inj h
    cases hb
  | cons s rest ih =>
    intro bs h b hb
    unfold parseAll at h
    cases hs : parseCidrStr s with
    | none => rw [hs] at h; cases h
    | some c =>
      cases hrest : parseAll rest with
      | none => rw [hs, hrest] at h; cases h
      | some cs =>
        rw [hs, hrest] at h
        obtain rfl := Option.some.inj h
        rcases List.mem_cons.mp hb with hb | hb
        · subst hb; exact parseCidr_bounds hs
        · exact ih hrest b hb

theorem parseAll_none_of_mem :
    ∀ {l : List String} {s : String}, s ∈ l → parseCidrStr s = none →
    parseAll l = none := by
  intro l
  induction l with
  | nil => intro s hs; cases hs
  | cons t rest ih =>
    intro s hs hnone
    unfold parseAll
    rcases List.mem_cons.mp hs with hs | hs
    · subst hs; rw [hnone]
    · rw [ih hs hnone]
      cases parseCidrStr t <;> rfl

theorem ipsetRanges_bdd {l : List String} {rs : List Range}
    (h : ipsetRanges l = some rs) : BddR rs := by
  unfold ipsetRanges at h
  cases hp : parseAll l with
  | none => rw [hp] at h; cases h
  | some bs =>
    rw [hp] at h
    simp only [Option.map_some'] at h
    obtain rfl := Option.some.inj h
    have hbs := parseAll_bounds hp
    clear hp h
    suffices hgen : ∀ (bs : List Cidr) (acc : List Range),
        (∀ b ∈ bs, b.base < addrSpace ∧ b.plen ≤ 32) → BddR acc →
        BddR (bs.foldl (fun acc b =>
          insertRange (cidrRange b).1 (cidrRange b).2 acc) acc) by
      exact hgen bs [] hbs (by rintro r hr; cases hr)
    intro bs
    induction bs with
    | nil => intro acc _ h; exact h
    | cons b bs ih =>
      intro acc hbs hacc
      refine ih _ (fun c hc => hbs c (List.mem_cons_of_mem _ hc)) ?_
      have hb := hbs b (List.mem_cons_self _ _)
      exact insertRange_bdd hacc (cidrRange_bdd hb.1 hb.2)

theorem fullIPv4_ok : OkFrom 0 fullIPv4 := by
  refine ⟨Nat.le_refl _, ?_, trivial⟩
  show (0 : Nat) ≤ addrSpace - 1
  exact Nat.zero_le _

theorem fullIPv4_bdd : BddR fullIPv4 := by
  rintro r hr
  rcases List.mem_cons.mp hr with hr | hr
  · subst hr
    show addrSpace - 1 < addrSpace
    have : (0 : Nat) < addrSpace := by
      show (0 : Nat) < 4294967296
      omega
    omega
  · cases hr

/-- The final allowed set of the orchestrator is canonical and bounded. -/
theorem computeAllowed_ok {e r i : List String} {c : Int} {out : List Range}
    (h : computeAllowed e r i c = Except.ok out) :
    OkFrom 0 out ∧ BddR out := by
  unfold computeAllowed at h
  split at h
  · cases h
  · rename_i excludedSet hex
    have hexok := ipsetRanges_ok hex
    have hexwf : ∀ s ∈ excludedSet, s.1 ≤ s.2 :=
      fun s hs => (OkFrom_wf hexok s hs).2
    have hdiffok : OkFrom 0 (diffR fullIPv4 excludedSet) :=
      diffR_ok excludedSet fullIPv4 hexwf fullIPv4_ok
    have hdiffbdd : BddR (diffR fullIPv4 excludedSet) :=
      diffR_bdd excludedSet fullIPv4 fullIPv4_bdd
    split at h
    · obtain rfl := Except.ok.inj h
      exact ⟨hdiffok, hdiffbdd⟩
    · rename_i s rest hi0
      split at h
      · cases h
      · rename_i includeSet hinc
        obtain rfl := Except.ok.inj h
        have hincok := ipsetRanges_ok hinc
        have hincwf : ∀ t ∈ includeSet, t.1 ≤ t.2 :=
          fun t ht => (OkFrom_wf hincok t ht).2
        refine ⟨unionR_ok includeSet _ hincwf hdiffok, ?_⟩
        exact unionR_bdd includeSet _ hdiffbdd (fun t ht => (ipsetRanges_bdd hinc) t ht)

/-! ## Canonicity of `iter_cidrs` output -/

theorem iterCidrs_base_ge :
    ∀ {rs : List Range} {lb : Nat}, OkFrom lb rs →
    ∀ b ∈ iterCidrs rs, lb ≤ b.base := by
  intro rs
  induction rs with
  | nil => intro lb _ b hb; cases hb
  | cons r rest ih =>
    intro lb hok b hb
    obtain ⟨a, hi⟩ := r
    obtain ⟨h1, h2, h3⟩ := hok
    unfold iterCidrs at hb
    rw [List.flatMap_cons] at hb
    rcases List.mem_append.mp hb with hb | hb
    · have := (tiling_blocks hi _ _ (rangeToCidr_tiling a hi h2) b hb).1
      omega
    · have := ih h3 b hb
      omega

theorem iterCidrs_canonical :
    ∀ {rs : List Range} {lb : Nat}, OkFrom lb rs →
    List.Pairwise (fun b1 b2 => blockEnd b1 < b2.base) (iterCidrs rs) ∧
    List.Chain' (fun b1 b2 => ¬ mergeable b1 b2) (iterCidrs rs) := by
  intro rs
  induction rs with
  | nil =>
    intro lb _
    exact ⟨List.Pairwise.nil, List.chain'_nil⟩
  | cons r rest ih =>
    intro lb hok
    obtain ⟨a, hi⟩ := r
    obtain ⟨h1, h2, h3⟩ := hok
    have htil := rangeToCidr_tiling a hi h2
    have hblocks := tiling_blocks hi _ _ htil
    have hrest := ih h3
    have hrestge := iterCidrs_base_ge h3
    show List.Pairwise _ (iterCidrs ((a, hi) :: rest)) ∧
      List.Chain' _ (iterCidrs ((a, hi) :: rest))
    have hsplit : iterCidrs ((a, hi) :: rest) = rangeToCidr a hi ++ iterCidrs rest := by
      unfold iterCidrs
      rw [List.flatMap_cons]
    rw [hsplit]
    constructor
    · rw [List.pairwise_append]
      refine ⟨tiling_pairwise hi _ _ htil, hrest.1, ?_⟩
      intro b1 hb1 b2 hb2
      have he1 := (hblocks b1 hb1).2.2.2.1
      have hg2 := hrestge b2 hb2
      omega
    · refine List.Chain'.append (tiling_chain_nomerge hi _ _ htil) hrest.2 ?_
      intro b1 hb1 b2 hb2
      obtain ⟨hne, heq⟩ := List.mem_getLast?_eq_getLast hb1
      have hb1mem : b1 ∈ rangeToCidr a hi := by
        rw [heq]; exact List.getLast_mem hne
      have hb2mem : b2 ∈ iterCidrs rest := List.mem_of_mem_head? hb2
      have he1 := (hblocks b1 hb1mem).2.2.2.1
      have hsz : 1 ≤ blockSize b1.plen := Nat.one_le_two_pow
      have hg2 := hrestge b2 hb2mem
      intro hm
      obtain ⟨-, -, hadj, -⟩ := hm
      unfold blockEnd at he1
      omega

/-! ## Character facts for the normalizer -/

theorem dash_not_mem_smallNat {n : Nat} (h : n < 256) : '-' ∉ smallNatChars n :=
  fun hc => (smallNat_chars n h _ hc).2.2 rfl

theorem dash_not_mem_printIPv4 (n : Nat) : '-' ∉ printIPv4Chars n := by
  intro hc
  unfold printIPv4Chars at hc
  have h1 : n / 16777216 % 256 < 256 := Nat.mod_lt _ (by omega)
  have h2 : n / 65536 % 256 < 256 := Nat.mod_lt _ (by omega)
  have h3 : n / 256 % 256 < 256 := Nat.mod_lt _ (by omega)
  have h4 : n % 256 < 256 := Nat.mod_lt _ (by omega)
  simp only [List.mem_append, List.mem_cons] at hc
  rcases hc with h | h | h | h | h | h | h
  · exact dash_not_mem_smallNat h1 h
  · cases h
  · exact dash_not_mem_smallNat h2 h
  · cases h
  · exact dash_not_mem_smallNat h3 h
  · cases h
  · exact dash_not_mem_smallNat h4 h

set_option maxRecDepth 10000 in
theorem smallNat_not_space : ∀ n < 256, ∀ c ∈ smallNatChars n,
    isSpaceChar c = false := by
  decide

theorem printIPv4_not_space (n : Nat) :
    ∀ c ∈ printIPv4Chars n, isSpaceChar c = false := by
  intro c hc
  unfold printIPv4Chars at hc
  have h1 : n / 16777216 % 256 < 256 := Nat.mod_lt _ (by omega)
  have h2 : n / 65536 % 256 < 256 := Nat.mod_lt _ (by omega)
  have h3 : n / 256 % 256 < 256 := Nat.mod_lt _ (by omega)
  have h4 : n % 256 < 256 := Nat.mod_lt _ (by omega)
  simp only [List.mem_append, List.mem_cons] at hc
  rcases hc with h | h | h | h | h | h | h
  · exact smallNat_not_space _ h1 c h
  · subst h; rfl
  · exact smallNat_not_space _ h2 c h
  · subst h; rfl
  · exact smallNat_not_space _ h3 c h
  · subst h; rfl
  · exact smallNat_not_space _ h4 c h

theorem dropWhile_of_false {p : Char → Bool} :
    ∀ {l : List Char}, (∀ c ∈ l, p c = false) → l.dropWhile p = l := by
  intro l h
  cases l with
  | nil => rfl
  | cons x xs =>
    rw [List.dropWhile_cons, h x (List.mem_cons_self _ _)]
    simp

theorem stripStr_noop {l : List Char} (h : ∀ c ∈ l, isSpaceChar c = false) :
    stripStr ⟨l⟩ = ⟨l⟩ := by
  unfold stripStr
  show String.mk ((List.dropWhile _ _).reverse.dropWhile _).reverse = _
  rw [dropWhile_of_false h]
  rw [dropWhile_of_false (fun c hc => h c (List.mem_reverse.mp hc))]
  rw [List.reverse_reverse]

/-- The normalizer turns a well-formed `start-end` token into the printed
greedy decomposition of the range. -/
theorem normalize_range_token {a b : Nat} (ha : a < addrSpace)
    (hb : b < addrSpace) (hab : a ≤ b) :
    normalize_ripe_ipv4_list [⟨printIPv4Chars a ++ '-' :: printIPv4Chars b⟩] =
      (rangeToCidr a b).map printCidr := by
  have hnospace : ∀ c ∈ printIPv4Chars a ++ '-' :: printIPv4Chars b,
      isSpaceChar c = false := by
    intro c hc
    simp only [List.mem_append, List.mem_cons] at hc
    rcases hc with h | h | h
    · exact printIPv4_not_space a c h
    · subst h; rfl
    · exact printIPv4_not_space b c h
  have hstrip := stripStr_noop hnospace
  have hcontains : (printIPv4Chars a ++ '-' :: printIPv4Chars b).contains '-' = true := by
    have hmem : '-' ∈ printIPv4Chars a ++ '-' :: printIPv4Chars b :=
      List.mem_append.mpr (Or.inr (List.mem_cons_self _ _))
    exact List.elem_eq_true_of_mem hmem
  have hsplit : splitOnChar '-' (printIPv4Chars a ++ '-' :: printIPv4Chars b) =
      [printIPv4Chars a, printIPv4Chars b] := by
    rw [splitOnChar_append (dash_not_mem_printIPv4 a),
        splitOnChar_not_mem (dash_not_mem_printIPv4 b)]
  show (if (stripStr ⟨printIPv4Chars a ++ '-' :: printIPv4Chars b⟩).data.contains '-' = true then _
      else _) ++ [] = _
  rw [hstrip]
  show (if (printIPv4Chars a ++ '-' :: printIPv4Chars b).contains '-' = true then _ else _) ++ [] = _
  rw [if_pos hcontains, hsplit]
  show (match parseIPv4Chars (printIPv4Chars a), parseIPv4Chars (printIPv4Chars b) with
    | some a, some b => if a ≤ b then (rangeToCidr a b).map printCidr else []
    | _, _ => []) ++ [] = _
  rw [parseIPv4_print ha, parseIPv4_print hb]
  show (if a ≤ b then (rangeToCidr a b).map printCidr else []) ++ [] = _
  rw [if_pos hab, List.append_nil]

/-! ## The covering block of the aggregator -/

theorem maskBase_cover {ip p c : Nat} (hcp : c ≤ p) (hp : p ≤ 32) :
    maskBase ip c ≤ maskBase ip p ∧
    maskBase ip p + blockSize p - 1 ≤ maskBase ip c + blockSize c - 1 := by
  have hdvd : blockSize p ∣ blockSize c := by
    show 2 ^ (32 - p) ∣ 2 ^ (32 - c)
    exact Nat.pow_dvd_pow 2 (by omega)
  have hSpos : 1 ≤ blockSize p := Nat.one_le_two_pow
  have hCpos : 1 ≤ blockSize c := Nat.one_le_two_pow
  have hmm : ip % blockSize c % blockSize p = ip % blockSize p :=
    Nat.mod_mod_of_dvd ip hdvd
  have hrle : ip % blockSize c < blockSize c := Nat.mod_lt _ (by omega)
  have hsr : ip % blockSize c % blockSize p ≤ ip % blockSize c := Nat.mod_le _ _
  -- r - r % S = S * (r / S) ≤ C - S
  have hq := Nat.div_add_mod (ip % blockSize c) (blockSize p)
  have hCS : blockSize c = blockSize p * (blockSize c / blockSize p) :=
    (Nat.mul_div_cancel' hdvd).symm
  have hqlt : ip % blockSize c / blockSize p < blockSize c / blockSize p := by
    apply Nat.div_lt_div_of_lt_of_dvd hdvd hrle
  have hqmul : blockSize p * (ip % blockSize c / blockSize p) + blockSize p ≤
      blockSize c := by
    calc blockSize p * (ip % blockSize c / blockSize p) + blockSize p
        = blockSize p * (ip % blockSize c / blockSize p + 1) := by ring
      _ ≤ blockSize p * (blockSize c / blockSize p) :=
          Nat.mul_le_mul_left _ (by omega)
      _ = blockSize c := hCS.symm
  have hmod_le : ip % blockSize p ≤ ip % blockSize c := by
    rw [← hmm]; exact hsr
  have hip1 : ip % blockSize c ≤ ip := Nat.mod_le _ _
  unfold maskBase
  constructor
  · omega
  · -- (ip - ip % S) + S ≤ (ip - ip % C) + C
    have : ip % blockSize c - ip % blockSize p ≤ blockSize c - blockSize p := by
      rw [← hmm]
      omega
    omega

/-! ## Behaviour of the aggregator's loop body -/

theorem expandItem_parsed {item : String} {b : Cidr} {c : Int}
    (hp : parseCidrStr item = some b) :
    expandItem c item =
      if (b.plen : Int) > c then
        if 0 ≤ c ∧ c ≤ 32 then
          some (printCidr ⟨maskBase b.base c.toNat, c.toNat⟩)
        else none
      else some (printCidr b) := by
  unfold expandItem
  rw [hp]

theorem expandItem_none {item : String} {c : Int}
    (hp : parseCidrStr item = none) : expandItem c item = none := by
  unfold expandItem
  rw [hp]

theorem maskBase_le (ip p : Nat) : maskBase ip p ≤ ip := by
  unfold maskBase
  omega

theorem maskBase_idem (ip p : Nat) : maskBase (maskBase ip p) p = maskBase ip p := by
  have h1 := maskBase_eq_mul ip p
  have h2 := maskBase_eq_mul (maskBase ip p) p
  rw [h1] at h2
  rw [Nat.mul_div_cancel_left _ (show 0 < blockSize p from Nat.one_le_two_pow)] at h2
  rw [h1]
  exact h2

/-- The processed token of a parsed token parses back to exactly the block
the aggregator produced. -/
theorem expandItem_output_parses {item t : String} {c : Int}
    (h0 : 0 ≤ c) (h32 : c ≤ 32)
    (ht : expandItem c item = some t) :
    ∃ b : Cidr, parseCidrStr t = some b ∧ (b.plen : Int) ≤ c ∧
      expandItem c t = some t := by
  cases hp : parseCidrStr item with
  | none => rw [expandItem_none hp] at ht; cases ht
  | some b =>
    rw [expandItem_parsed hp] at ht
    have hbd := parseCidr_bounds hp
    split at ht
    · rename_i hgt
      rw [if_pos ⟨h0, h32⟩] at ht
      obtain rfl := Option.some.inj ht
      have hmlt : maskBase b.base c.toNat < addrSpace :=
        Nat.lt_of_le_of_lt (maskBase_le _ _) hbd.1
      have hc32 : c.toNat ≤ 32 := by omega
      have hrt := @printCidr_parse ⟨maskBase b.base c.toNat, c.toNat⟩ hmlt hc32
      refine ⟨⟨maskBase b.base c.toNat, c.toNat⟩, hrt, by simp; omega, ?_⟩
      have hnot : ¬ (((⟨maskBase b.base c.toNat, c.toNat⟩ : Cidr).plen : Int) > c) := by
        simp
        omega
      rw [expandItem_parsed hrt, if_neg hnot]
    · rename_i hle
      obtain rfl := Option.some.inj ht
      have hrt := printCidr_parse hbd.1 hbd.2
      refine ⟨b, hrt, by omega, ?_⟩
      rw [expandItem_parsed hrt, if_neg hle]

theorem filterMap_stable {α : Type} {f : α → Option α}
    (hf : ∀ s t, f s = some t → f t = some t) :
    ∀ l : List α, (l.filterMap f).filterMap f = l.filterMap f := by
  intro l
  induction l with
  | nil => rfl
  | cons a l ih =>
    rw [List.filterMap_cons]
    cases ha : f a with
    | none => exact ih
    | some t =>
      rw [List.filterMap_cons, hf a t ha, ih]

/-! ## Claim theorems -/

/-- C2: for every valid address range `start ≤ fin`, the range-to-CIDR
conversion — as invoked on a `start-end` token by the normalizer — produces
an ordered list of prefix-aligned CIDR blocks whose union as an address set
equals the range exactly, and no two adjacent emitted blocks can merge into
a larger aligned block. -/
theorem rangeToCidr_exact (start fin : Nat) (hle : start ≤ fin)
    (hbd : fin < addrSpace) :
    (∀ n, (∃ b ∈ rangeToCidr start fin, memBlock b n) ↔ (start ≤ n ∧ n ≤ fin)) ∧
    (∀ b ∈ rangeToCidr start fin, Aligned b ∧ b.plen ≤ 32) ∧
    List.Pairwise (fun b1 b2 => blockEnd b1 < b2.base) (rangeToCidr start fin) ∧
    List.Chain' (fun b1 b2 => ¬ mergeable b1 b2) (rangeToCidr start fin) ∧
    normalize_ripe_ipv4_list [⟨printIPv4Chars start ++ '-' :: printIPv4Chars fin⟩] =
      (rangeToCidr start fin).map printCidr := by
  have ht := rangeToCidr_tiling start fin hle
  refine ⟨tiling_mem fin _ _ ht, ?_, tiling_pairwise fin _ _ ht,
    tiling_chain_nomerge fin _ _ ht,
    normalize_range_token (by omega) hbd hle⟩
  intro b hb
  have h := tiling_blocks fin _ _ ht b hb
  exact ⟨h.2.2.1, h.2.1⟩

/-- Witness for C2 at the spec's scenario `10.0.0.1-10.0.0.3`. -/
theorem rangeToCidr_exact_witness :
    ∃ b ∈ rangeToCidr 167772161 167772163, memBlock b 167772162 :=
  ((rangeToCidr_exact 167772161 167772163 (by decide) (by decide)).1
    167772162).mpr (by decide)

/-- C4: the aggregator maps each well-formed block narrower than the cutoff
to its unique covering block at the cutoff (base masked with the cutoff-bit
network mask) and passes every block at or above the cutoff through
unchanged. -/
theorem expand_covering (item : String) (b : Cidr) (c : Int)
    (h0 : 0 ≤ c) (h32 : c ≤ 32) (hp : parseCidrStr item = some b) :
    expand_small_networks [item] c =
      if (b.plen : Int) > c then [printCidr ⟨maskBase b.base c.toNat, c.toNat⟩]
      else [printCidr b] := by
  show List.filterMap (expandItem c) [item] = _
  rw [List.filterMap_cons, List.filterMap_nil, expandItem_parsed hp]
  rcases lt_or_ge c (b.plen : Int) with hgt | hge
  · rw [if_pos hgt, if_pos ⟨h0, h32⟩, if_pos hgt]
  · rw [if_neg (not_lt.mpr hge), if_neg (not_lt.mpr hge)]

/-- Witness for C4 at the spec's scenario
`Aggregate({192.168.5.10/32}, 24) = {192.168.5.0/24}`. -/
theorem expand_covering_witness :
    expand_small_networks ["192.168.5.10/32"] 24 = ["192.168.5.0/24"] := by
  have h := expand_covering "192.168.5.10/32" ⟨3232236810, 32⟩ 24
    (by decide) (by decide) (by decide)
  exact h.trans (by decide)

/-- C5: with a cutoff in `0..32`, every block of the aggregated output has
prefix length at most the cutoff, and the address set of the input blocks
is a subset of the address set of the output blocks. -/
theorem expand_monotone (items : List String) (c : Int)
    (h0 : 0 ≤ c) (h32 : c ≤ 32) :
    (∀ s ∈ expand_small_networks items c, ∀ b : Cidr,
      parseCidrStr s = some b → (b.plen : Int) ≤ c) ∧
    (∀ n : Nat,
      (∃ s ∈ items, ∃ b : Cidr, parseCidrStr s = some b ∧
        (cidrRange b).1 ≤ n ∧ n ≤ (cidrRange b).2) →
      (∃ s ∈ expand_small_networks items c, ∃ b : Cidr, parseCidrStr s = some b ∧
        (cidrRange b).1 ≤ n ∧ n ≤ (cidrRange b).2)) := by
  constructor
  · intro s hs b hb
    obtain ⟨item, hitem, hf⟩ := List.mem_filterMap.mp hs
    obtain ⟨b0, hp0, hple, -⟩ := expandItem_output_parses h0 h32 hf
    rw [hp0] at hb
    obtain rfl := Option.some.inj hb
    exact hple
  · rintro n ⟨s, hs, b, hp, hlo, hhi⟩
    have hbd := parseCidr_bounds hp
    rcases lt_or_ge c (b.plen : Int) with hgt | hge
    · have hcp : c.toNat ≤ b.plen := by omega
      have hmlt : maskBase b.base c.toNat < addrSpace :=
        Nat.lt_of_le_of_lt (maskBase_le _ _) hbd.1
      have hc32 : c.toNat ≤ 32 := by omega
      have ht : expandItem c s =
          some (printCidr ⟨maskBase b.base c.toNat, c.toNat⟩) := by
        rw [expandItem_parsed hp, if_pos hgt, if_pos ⟨h0, h32⟩]
      refine ⟨printCidr ⟨maskBase b.base c.toNat, c.toNat⟩,
        List.mem_filterMap.mpr ⟨s, hs, ht⟩,
        ⟨maskBase b.base c.toNat, c.toNat⟩, printCidr_parse hmlt hc32, ?_, ?_⟩
      · show maskBase (maskBase b.base c.toNat) c.toNat ≤ n
        have hcover := @maskBase_cover b.base b.plen c.toNat hcp hbd.2
        rw [maskBase_idem]
        have hlo' : maskBase b.base b.plen ≤ n := hlo
        omega
      · show n ≤ maskBase (maskBase b.base c.toNat) c.toNat + blockSize c.toNat - 1
        have hcover := @maskBase_cover b.base b.plen c.toNat hcp hbd.2
        have h2 : 1 ≤ blockSize b.plen := Nat.one_le_two_pow
        rw [maskBase_idem]
        have hhi' : n ≤ maskBase b.base b.plen + blockSize b.plen - 1 := hhi
        omega
    · have ht : expandItem c s = some (printCidr b) := by
        rw [expandItem_parsed hp, if_neg (not_lt.mpr hge)]
      exact ⟨printCidr b, List.mem_filterMap.mpr ⟨s, hs, ht⟩, b,
        printCidr_parse hbd.1 hbd.2, hlo, hhi⟩

/-- Witness for C5: a `/32` aggregated to `/24` still covers its address. -/
theorem expand_monotone_witness :
    ∃ s ∈ expand_small_networks ["192.168.5.10/32"] 24, ∃ b : Cidr,
      parseCidrStr s = some b ∧ (cidrRange b).1 ≤ 3232236810 ∧
      3232236810 ≤ (cidrRange b).2 :=
  (expand_monotone ["192.168.5.10/32"] 24 (by decide) (by decide)).2
    3232236810 ⟨"192.168.5.10/32", by decide, ⟨3232236810, 32⟩,
      by decide, by decide, by decide⟩

/-- C10: the aggregator is idempotent for every cutoff in `0..32`. -/
theorem expand_idempotent (items : List String) (c : Int)
    (h0 : 0 ≤ c) (h32 : c ≤ 32) :
    expand_small_networks (expand_small_networks items c) c =
      expand_small_networks items c := by
  apply filterMap_stable
  intro s t hst
  obtain ⟨b, -, -, hstable⟩ := expandItem_output_parses h0 h32 hst
  exact hstable

/-- Witness for C10 at a concrete block list. -/
theorem expand_idempotent_witness :
    expand_small_networks (expand_small_networks
      ["192.168.5.10/32", "10.0.0.0/8", "bad"] 24) 24 =
    expand_small_networks ["192.168.5.10/32", "10.0.0.0/8", "bad"] 24 :=
  expand_idempotent ["192.168.5.10/32", "10.0.0.0/8", "bad"] 24
    (by decide) (by decide)

/-- C1: every address of the local include list is in the final allowed
set, whatever the exclude list and country feed contain. -/
theorem include_overrides_exclude (e r i : List String) (c : Int)
    (out inc : List Range) (a : Nat)
    (hrun : computeAllowed e r i c = Except.ok out)
    (hinc : ipsetRanges (read_cidrs_from_file i) = some inc)
    (ha : memR a inc) : memR a out := by
  unfold computeAllowed at hrun
  split at hrun
  · cases hrun
  · rename_i excludedSet hex
    split at hrun
    · rename_i hi0
      rw [hi0] at hinc
      have hnil : inc = [] := (Option.some.inj hinc).symm
      subst hnil
      exact absurd ha (memR_nil a)
    · rename_i s rest hi0
      split at hrun
      · cases hrun
      · rename_i includeSet hinc2
        obtain rfl := Except.ok.inj hrun
        rw [hi0, hinc2] at hinc
        obtain rfl := Option.some.inj hinc
        have hincok := ipsetRanges_ok hinc2
        have hincwf : ∀ t ∈ includeSet, t.1 ≤ t.2 :=
          fun t ht => (OkFrom_wf hincok t ht).2
        have hexok := ipsetRanges_ok hex
        have hexwf : ∀ t ∈ excludedSet, t.1 ≤ t.2 :=
          fun t ht => (OkFrom_wf hexok t ht).2
        have hdiffok : OkFrom 0 (diffR fullIPv4 excludedSet) :=
          diffR_ok excludedSet fullIPv4 hexwf fullIPv4_ok
        have hdiffwf : ∀ t ∈ diffR fullIPv4 excludedSet, t.1 ≤ t.2 :=
          fun t ht => (OkFrom_wf hdiffok t ht).2
        exact (unionR_mem a includeSet (diffR fullIPv4 excludedSet)
          hincwf hdiffwf).mpr (Or.inr ha)

/-- Witness for C1 at the spec's scenario 5: `10.5.5.5` is excluded by
`10.0.0.0/8` but included back. -/
theorem include_overrides_exclude_witness :
    memR 168101125 [(0, 167772159), (168101125, 168101125),
      (184549376, 4294967295)] :=
  include_overrides_exclude ["10.0.0.0/8"] [] ["10.5.5.5/32"] 10
    [(0, 167772159), (168101125, 168101125), (184549376, 4294967295)]
    [(168101125, 168101125)] 168101125 rfl rfl (by decide)

/-- C6: the final allowed block list is canonical: strictly increasing by
base address, pairwise disjoint, and no two adjacent blocks can merge into
one larger aligned block; the orchestrator's string output prints exactly
this list. -/
theorem output_canonical (e r i : List String) (c : Int) (out : List Range)
    (h : computeAllowed e r i c = Except.ok out) :
    List.Pairwise (fun b1 b2 => b1.base < b2.base) (iterCidrs out) ∧
    List.Pairwise (fun b1 b2 => blockEnd b1 < b2.base) (iterCidrs out) ∧
    List.Chain' (fun b1 b2 => ¬ mergeable b1 b2) (iterCidrs out) ∧
    computeAllowedStrings e r i c = Except.ok ((iterCidrs out).map printCidr) := by
  have hok := (computeAllowed_ok h).1
  have hcan := iterCidrs_canonical hok
  refine ⟨?_, hcan.1, hcan.2, ?_⟩
  · refine hcan.1.imp ?_
    intro b1 b2 hlt
    have h1 : 1 ≤ blockSize b1.plen := Nat.one_le_two_pow
    unfold blockEnd at hlt
    omega
  · unfold computeAllowedStrings
    rw [h]
    rfl

/-- Witness for C6 at a concrete run. -/
theorem output_canonical_witness :
    List.Chain' (fun b1 b2 => ¬ mergeable b1 b2)
      (iterCidrs [(0, 167772159), (184549376, 4294967295)]) :=
  (output_canonical ["10.0.0.0/8"] [] [] 10
    [(0, 167772159), (184549376, 4294967295)] rfl).2.2.1

/-- C7: the union of two canonical address sets is commutative — both
orders produce the same canonical block sequence. -/
theorem unionR_comm (A B : List Range) (hA : OkFrom 0 A) (hB : OkFrom 0 B) :
    unionR A B = unionR B A := by
  have wfA : ∀ r ∈ A, r.1 ≤ r.2 := fun r hr => (OkFrom_wf hA r hr).2
  have wfB : ∀ r ∈ B, r.1 ≤ r.2 := fun r hr => (OkFrom_wf hB r hr).2
  apply okFrom_ext _ _ 0 (unionR_ok B A wfB hA) (unionR_ok A B wfA hB)
  intro n
  rw [unionR_mem n B A wfB wfA, unionR_mem n A B wfA wfB]
  tauto

/-- Witness for C7 on two concrete canonical sets. -/
theorem unionR_comm_witness :
    unionR [(0, 10), (20, 30)] [(5, 12), (100, 200)] =
      unionR [(5, 12), (100, 200)] [(0, 10), (20, 30)] :=
  unionR_comm [(0, 10), (20, 30)] [(5, 12), (100, 200)]
    (by decide) (by decide)

/-- C9: the orchestrating computation is deterministic — identical inputs
produce the identical canonical list of CIDR strings. -/
theorem orchestrator_deterministic (e r i : List String) (c : Int)
    (e' r' i' : List String) (c' : Int)
    (he : e = e') (hr : r = r') (hi : i = i') (hc : c = c') :
    computeAllowedStrings e r i c = computeAllowedStrings e' r' i' c' := by
  subst he
  subst hr
  subst hi
  subst hc
  rfl

/-- Witness for C9: two runs on the same concrete inputs. -/
theorem orchestrator_deterministic_witness :
    computeAllowedStrings ["10.0.0.0/8"] ["1.2.3.4"] ["10.5.5.5/32"] 10 =
      computeAllowedStrings ["10.0.0.0/8"] ["1.2.3.4"] ["10.5.5.5/32"] 10 :=
  orchestrator_deterministic ["10.0.0.0/8"] ["1.2.3.4"] ["10.5.5.5/32"] 10
    ["10.0.0.0/8"] ["1.2.3.4"] ["10.5.5.5/32"] 10 rfl rfl rfl rfl

theorem read_cidrs_append (l1 l2 : List String) :
    read_cidrs_from_file (l1 ++ l2) =
      read_cidrs_from_file l1 ++ read_cidrs_from_file l2 := by
  unfold read_cidrs_from_file
  rw [List.map_append, List.filter_append]

theorem normalize_append (l1 l2 : List String) :
    normalize_ripe_ipv4_list (l1 ++ l2) =
      normalize_ripe_ipv4_list l1 ++ normalize_ripe_ipv4_list l2 :=
  List.flatMap_append l1 l2 _

/-- C3 counterexample: a malformed line in the local exclude file is fatal —
the orchestrator exits instead of skipping it, so the remaining valid line
`10.0.0.0/8` is never processed. -/
theorem malformed_exclude_fatal_counterexample :
    computeAllowed ["not-an-ip", "10.0.0.0/8"] [] [] 10 = Except.error () := rfl

/-- C3 amended: a malformed token in a country-feed entry is logged and
skipped with processing continuing, but a malformed line in the local
exclude file is fatal: `IPSet` construction raises and the orchestrator
exits with an error, whatever else the lists contain. -/
theorem malformed_exclude_fatal (pre post r i : List String) (c : Int) :
    computeAllowed (pre ++ "not-an-ip" :: post) r i c = Except.error () ∧
    ∀ fpre fpost : List String,
      normalize_ripe_ipv4_list (fpre ++ "not-an-ip" :: fpost) =
        normalize_ripe_ipv4_list fpre ++ normalize_ripe_ipv4_list fpost := by
  constructor
  · have hmem : "not-an-ip" ∈ read_cidrs_from_file (pre ++ "not-an-ip" :: post) ++
        expand_small_networks (normalize_ripe_ipv4_list r) c := by
      apply List.mem_append.mpr
      left
      rw [show pre ++ "not-an-ip" :: post = pre ++ (["not-an-ip"] ++ post) from rfl]
      rw [read_cidrs_append, read_cidrs_append]
      apply List.mem_append.mpr
      right
      apply List.mem_append.mpr
      left
      rw [show read_cidrs_from_file ["not-an-ip"] = ["not-an-ip"] from rfl]
      exact List.mem_cons_self _ _
    have hnone : parseAll (read_cidrs_from_file (pre ++ "not-an-ip" :: post) ++
        expand_small_networks (normalize_ripe_ipv4_list r) c) = none :=
      parseAll_none_of_mem hmem rfl
    have hips : ipsetRanges (read_cidrs_from_file (pre ++ "not-an-ip" :: post) ++
        expand_small_networks (normalize_ripe_ipv4_list r) c) = none := by
      unfold ipsetRanges
      rw [hnone]
      rfl
    unfold computeAllowed
    rw [hips]
  · intro fpre fpost
    rw [show fpre ++ "not-an-ip" :: fpost = fpre ++ (["not-an-ip"] ++ fpost) from rfl]
    rw [normalize_append, normalize_append]
    rw [show normalize_ripe_ipv4_list ["not-an-ip"] = [] from rfl]
    rw [List.nil_append]

/-- C8 counterexample: with the cutoff outside `0..32` the orchestrator
still runs to completion — with cutoff `40` nothing is touched (`isOk`),
and with cutoff `-1` the aggregator silently drops every entry instead of
failing. -/
theorem cutoff_unvalidated_counterexample :
    (computeAllowed [] ["1.2.3.4/32"] [] 40).isOk = true ∧
    expand_small_networks ["1.2.3.4/32"] (-1) = [] := ⟨rfl, rfl⟩

/-- C8 amended: the orchestrator performs no cutoff validation.  With a
cutoff above 32 every entry passes the aggregator untouched (no block is
narrower than the cutoff) and the run proceeds normally; with a negative
cutoff the prefix-length assignment raises on every parsed entry, so the
aggregator logs and skips them all; neither case is a fatal configuration
error. -/
theorem cutoff_unvalidated :
    (∀ (items : List String) (c : Int), 32 < c →
      expand_small_networks items c =
        items.filterMap fun s => (parseCidrStr s).map printCidr) ∧
    (∀ (items : List String) (c : Int), c < 0 →
      expand_small_networks items c = []) ∧
    (computeAllowed [] ["1.2.3.4/32"] [] 40).isOk = true := by
  refine ⟨?_, ?_, rfl⟩
  · intro items c hc
    apply List.filterMap_congr
    intro s _
    show expandItem c s = (parseCidrStr s).map printCidr
    cases hp : parseCidrStr s with
    | none => rw [expandItem_none hp]; rfl
    | some b =>
      have hb := parseCidr_bounds hp
      rw [expandItem_parsed hp]
      rw [if_neg (show ¬ ((b.plen : Int) > c) by omega)]
      rfl
  · intro items c hc
    apply List.filterMap_eq_nil_iff.mpr
    intro s _
    cases hp : parseCidrStr s with
    | none => exact expandItem_none hp
    | some b =>
      rw [expandItem_parsed hp]
      rw [if_pos (show (b.plen : Int) > c by omega)]
      rw [if_neg (show ¬ (0 ≤ c ∧ c ≤ 32) by omega)]

/-- Witness for the amended C8: cutoff `40` leaves a `/32` untouched. -/
theorem cutoff_unvalidated_witness :
    expand_small_networks ["1.2.3.4/32"] 40 = ["1.2.3.4/32"] := by
  have h := cutoff_unvalidated.1 ["1.2.3.4/32"] 40 (by decide)
  exact h.trans (by decide)

end UpdateWg
